import Mathlib

/-!
Verification of the Glicko-2 rating engine, tournament orchestration and
population-promotion code of the AlphaEvolveWriting repository
(src/src/rankers/glicko_rank.py and src/src/generators/story_generator.py),
as a shallow embedding in exact real arithmetic.

Floating-point numbers of the source are modelled by real numbers; the two
unbounded loops of the volatility solve (the bracket-expansion loop and the
Illinois regula-falsi loop) are modelled with an explicit fuel parameter, and
every property proved below holds for every fuel value.  Promotion and
variant creation (story_generator.py) do no transcendental arithmetic and are
modelled over the rationals, so those facts are decidable.
-/

namespace AlphaEvolve

/-- The Glicko scale constant 173.7178 of glicko_rank.py. -/
def scale : ℝ := 173.7178

/-- `Q = math.log(10) / 400` (glicko_rank.py line 23). -/
noncomputable def Qconst : ℝ := Real.log 10 / 400

/-- A story with its Glicko-2 parameters: the dataclass `Story` of
glicko_rank.py (`story_id`, `rating`, `rd`, `sigma`, match statistics and the
internal-scale `_mu`, `_phi`).  The text payload and model name play no role
in the rating computation and are omitted. -/
structure GStory where
  id : ℕ
  rating : ℝ
  rd : ℝ
  sigma : ℝ
  mu : ℝ
  phi : ℝ
  matchesPlayed : ℕ
  wins : ℕ
  losses : ℕ

/-- `Story.__post_init__`: a freshly constructed story computes
`_mu = (rating - 1500) / 173.7178` and `_phi = rd / 173.7178`. -/
noncomputable def mkStory (i : ℕ) (rating rd sigma : ℝ) : GStory :=
  { id := i, rating := rating, rd := rd, sigma := sigma
    mu := (rating - 1500) / scale, phi := rd / scale
    matchesPlayed := 0, wins := 0, losses := 0 }

/-- `Story.update_public_ratings`: `rating = 173.7178 * _mu + 1500`,
`rd = 173.7178 * _phi`. -/
noncomputable def updatePublicRatings (s : GStory) : GStory :=
  { s with rating := scale * s.mu + 1500, rd := scale * s.phi }

/-- `GlickoRankingSystem._g`: `1 / sqrt(1 + 3 * Q^2 * phi^2 / pi^2)`. -/
noncomputable def gG (phi : ℝ) : ℝ :=
  1 / Real.sqrt (1 + 3 * Qconst ^ 2 * phi ^ 2 / Real.pi ^ 2)

/-- `GlickoRankingSystem._E`: `1 / (1 + exp(-g(phi_j) * (mu - mu_j)))`. -/
noncomputable def EG (mu oppMu oppPhi : ℝ) : ℝ :=
  1 / (1 + Real.exp (-gG oppPhi * (mu - oppMu)))

/-- One (opponent, outcome) entry of a rating period as `_update_player`
consumes it: the opponent values `_mu` and `_phi` as read at call time, and
the outcome (1.0 win / 0.0 loss). -/
abbrev OppEntry : Type := ℝ × ℝ × ℝ

/-- `v_sum` of `_update_player`:
`sum(g(opp_phi)^2 * E * (1 - E) for each opponent)`. -/
noncomputable def vSumOf (mu : ℝ) (pairs : List OppEntry) : ℝ :=
  (pairs.map fun q => gG q.2.1 ^ 2 * EG mu q.1 q.2.1 * (1 - EG mu q.1 q.2.1)).sum

/-- `v = 1 / v_sum`. -/
noncomputable def vOf (mu : ℝ) (pairs : List OppEntry) : ℝ := 1 / vSumOf mu pairs

/-- `delta_sum` of `_update_player`:
`sum(g(opp_phi) * (outcome - E) for each opponent)`. -/
noncomputable def deltaSumOf (mu : ℝ) (pairs : List OppEntry) : ℝ :=
  (pairs.map fun q => gG q.2.1 * (q.2.2 - EG mu q.1 q.2.1)).sum

/-- `delta = v * delta_sum`. -/
noncomputable def deltaOf (mu : ℝ) (pairs : List OppEntry) : ℝ :=
  vOf mu pairs * deltaSumOf mu pairs

/-- `a = math.log(player.sigma**2)`. -/
noncomputable def aOf (sigma : ℝ) : ℝ := Real.log (sigma ^ 2)

/-- The function `f` of the volatility solve in `_update_player`:
`f(x) = exp(x)*(delta^2 - phi^2 - v - exp(x)) / (2*(phi^2 + v + exp(x))^2)
        - (x - a) / tau^2`. -/
noncomputable def fIll (delta phi v a tau x : ℝ) : ℝ :=
  Real.exp x * (delta ^ 2 - phi ^ 2 - v - Real.exp x) /
      (2 * (phi ^ 2 + v + Real.exp x) ^ 2) -
    (x - a) / tau ^ 2

/-- The bracket-expansion loop of `_update_player`:
`k = 1; while f(a - k*tau) < 0: k += 1`, with fuel standing for the
unbounded iteration of the source loop. -/
noncomputable def findK (f : ℝ → ℝ) (a tau : ℝ) : ℕ → ℕ → ℕ
  | 0, k => k
  | fuel + 1, k => if f (a - k * tau) < 0 then findK f a tau fuel (k + 1) else k

/-- The initial upper bracket `B` of the volatility solve:
`if delta**2 > phi**2 + v: B = log(delta**2 - phi**2 - v)
 else: k loop; B = a - k * tau`. -/
noncomputable def bracketB (f : ℝ → ℝ) (a tau delta phi v : ℝ) (fuel : ℕ) : ℝ :=
  if phi ^ 2 + v < delta ^ 2 then Real.log (delta ^ 2 - phi ^ 2 - v)
  else a - (findK f a tau fuel 1 : ℕ) * tau

/-- The Illinois regula-falsi loop of `_update_player`
(`while abs(B - A) > epsilon: ...`), returning the final `A`; the state is
`(A, B, fA, fB)` and fuel stands for the unbounded iteration. -/
noncomputable def illinois (f : ℝ → ℝ) : ℕ → ℝ → ℝ → ℝ → ℝ → ℝ
  | 0, A, _, _, _ => A
  | fuel + 1, A, B, fA, fB =>
    if 0.000001 < |B - A| then
      let C := A + (A - B) * fA / (fB - fA)
      let fC := f C
      if fC * fB < 0 then illinois f fuel B C fB fC
      else illinois f fuel A C (fA / 2) fC
    else A

/-- The solve function `f` with the arguments `_update_player` gives it. -/
noncomputable def fOf (tau : ℝ) (p : GStory) (pairs : List OppEntry) : ℝ → ℝ :=
  fIll (deltaOf p.mu pairs) p.phi (vOf p.mu pairs) (aOf p.sigma) tau

/-- The bracket `B` as `_update_player` computes it. -/
noncomputable def BOf (tau : ℝ) (fuel : ℕ) (p : GStory) (pairs : List OppEntry) : ℝ :=
  bracketB (fOf tau p pairs) (aOf p.sigma) tau (deltaOf p.mu pairs) p.phi
    (vOf p.mu pairs) fuel

/-- The final `A` of the Illinois loop, started at `A = a`, `B`, `fA = f(A)`,
`fB = f(B)` as in `_update_player`. -/
noncomputable def AfinalOf (tau : ℝ) (fuel : ℕ) (p : GStory) (pairs : List OppEntry) : ℝ :=
  illinois (fOf tau p pairs) fuel (aOf p.sigma) (BOf tau fuel p pairs)
    (fOf tau p pairs (aOf p.sigma)) (fOf tau p pairs (BOf tau fuel p pairs))

/-- `player.sigma = exp(A / 2)` after the solve. -/
noncomputable def sigmaNew (tau : ℝ) (fuel : ℕ) (p : GStory) (pairs : List OppEntry) : ℝ :=
  Real.exp (AfinalOf tau fuel p pairs / 2)

/-- `phi_star = sqrt(phi^2 + sigma'^2)`. -/
noncomputable def phiStarOf (tau : ℝ) (fuel : ℕ) (p : GStory) (pairs : List OppEntry) : ℝ :=
  Real.sqrt (p.phi ^ 2 + sigmaNew tau fuel p pairs ^ 2)

/-- `phi' = 1 / sqrt(1 / phi_star^2 + 1 / v)`. -/
noncomputable def phiNew (tau : ℝ) (fuel : ℕ) (p : GStory) (pairs : List OppEntry) : ℝ :=
  1 / Real.sqrt (1 / phiStarOf tau fuel p pairs ^ 2 + 1 / vOf p.mu pairs)

/-- The non-empty-opponent branch of `_update_player`: new volatility from
the Illinois solve, `phi' = 1/sqrt(1/phi_star^2 + 1/v)`,
`mu' = mu + phi'^2 * delta_sum`, then `update_public_ratings`. -/
noncomputable def updatePlayerFull (tau : ℝ) (fuel : ℕ) (p : GStory)
    (pairs : List OppEntry) : GStory :=
  updatePublicRatings
    { p with
      sigma := sigmaNew tau fuel p pairs
      phi := phiNew tau fuel p pairs
      mu := p.mu + phiNew tau fuel p pairs ^ 2 * deltaSumOf p.mu pairs }

/-- `GlickoRankingSystem._update_player`: with no opponents,
`phi' = sqrt(phi^2 + sigma^2)` followed by `update_public_ratings`;
otherwise the full Glicko-2 update. -/
noncomputable def updatePlayer (tau : ℝ) (fuel : ℕ) (p : GStory)
    (pairs : List OppEntry) : GStory :=
  if pairs.isEmpty then
    updatePublicRatings { p with phi := Real.sqrt (p.phi ^ 2 + p.sigma ^ 2) }
  else updatePlayerFull tau fuel p pairs

/-- A resolved match as `MatchResult` of glicko_rank.py records it, with the
stories identified by id (`story1`, `story2`, `winner`, `loser`, the judge
reasoning and a timestamp). -/
structure MRes where
  story1 : ℕ
  story2 : ℕ
  winner : ℕ
  loser : ℕ
  reasoning : String
  timestamp : String
deriving DecidableEq

/-- What a single match result contributes to story `i` in `match_data`:
`(loser, 1.0)` when `i` won it, `(winner, 0.0)` when `i` lost it. -/
def blockOf (i : ℕ) (r : MRes) : List (ℕ × ℝ) :=
  (if r.winner = i then [(r.loser, (1 : ℝ))] else []) ++
    (if r.loser = i then [(r.winner, (0 : ℝ))] else [])

/-- The per-story (opponent id, outcome) list that `_process_rating_period`
accumulates in `match_data`: each result appends `(loser, 1.0)` to the winner
and `(winner, 0.0)` to the loser, in the order the results arrive. -/
def entriesFor (i : ℕ) : List MRes → List (ℕ × ℝ)
  | [] => []
  | r :: rest => blockOf i r ++ entriesFor i rest

/-- Reading a story out of the evolving stories list by id, as
`story_map[story_id]` does (the entries are the live objects of `stories`). -/
noncomputable def lookup (st : List GStory) (i : ℕ) : GStory :=
  (st.find? fun s => s.id = i).getD (mkStory 0 1500 350 0.06)

/-- The opponent values `_update_player` reads for story `i`: the opponents
are live `Story` objects, so their `_mu` and `_phi` are taken from the
current state at the moment story `i` is processed. -/
noncomputable def oppPairs (st : List GStory) (i : ℕ) (rs : List MRes) : List OppEntry :=
  (entriesFor i rs).map fun q => ((lookup st q.1).mu, (lookup st q.1).phi, q.2)

/-- In-place mutation of the story with id `i` in the stories list. -/
noncomputable def updateAt (st : List GStory) (i : ℕ) (f : GStory → GStory) : List GStory :=
  st.map fun s => if s.id = i then f s else s

/-- One iteration of the update loop of `_process_rating_period`:
`self._update_player(story_map[story_id], data['opponents'], data['outcomes'])`,
mutating the story in place; the opponent snapshots are read from the
current (already partially updated) state. -/
noncomputable def periodStep (tau : ℝ) (fuel : ℕ) (rs : List MRes)
    (st : List GStory) (i : ℕ) : List GStory :=
  updateAt st i fun s => updatePlayer tau fuel s (oppPairs st i rs)

/-- `GlickoRankingSystem._process_rating_period`: every story is updated once,
in the order of the stories list (the insertion order of `match_data`). -/
noncomputable def processRatingPeriod (tau : ℝ) (fuel : ℕ) (ids : List ℕ)
    (rs : List MRes) (st : List GStory) : List GStory :=
  ids.foldl (periodStep tau fuel rs) st

/-- The judge verdict of `judge_responses`: `"model_1"` names the text passed
in the first position, `"model_2"` the second. -/
inductive Verdict where
  | model1 : Verdict
  | model2 : Verdict
deriving DecidableEq

/-- The positions handed to the judge by `conduct_match`: on heads
(`random.choice` yields `True`) the pair `(story1, story2)` is passed as is,
otherwise swapped. -/
def judgedPair (s1 s2 : ℕ) (coin : Bool) : ℕ × ℕ :=
  if coin then (s1, s2) else (s2, s1)

/-- `GlickoRankingSystem.conduct_match`: `coin` models `random.choice`
(true = not swapped); `j = none` models a judge exception or the 120 s
timeout, in which case no result is produced; otherwise the verdict is
interpreted through the recorded swap and the winner and loser stories are
identified. -/
def conductMatch (s1 s2 : ℕ) (coin : Bool) (j : Option (Verdict × String))
    (ts : String) : Option MRes :=
  match j with
  | none => none
  | some (w, reasoning) =>
    let isSwapped := !coin
    let winner :=
      if isSwapped then (if w = Verdict.model1 then s2 else s1)
      else (if w = Verdict.model1 then s1 else s2)
    let loser := if winner = s1 then s2 else s1
    some ⟨s1, s2, winner, loser, reasoning, ts⟩

/-- One scheduled pairing of `run_tournament` together with the environment
of its match: the coin of the position swap, the judge call outcome
(`none` = raised / timed out) and the timestamp. -/
structure PairSpec where
  s1 : ℕ
  s2 : ℕ
  coin : Bool
  judge : Option (Verdict × String)
  ts : String

/-- The per-success statistics updates of `run_tournament`:
`res.winner.wins += 1; res.loser.losses += 1;
res.story1.matches_played += 1; res.story2.matches_played += 1`. -/
noncomputable def applyTally (st : List GStory) (r : MRes) : List GStory :=
  updateAt
    (updateAt
      (updateAt (updateAt st r.winner fun s => { s with wins := s.wins + 1 })
        r.loser fun s => { s with losses := s.losses + 1 })
      r.story1 fun s => { s with matchesPlayed := s.matchesPlayed + 1 })
    r.story2 fun s => { s with matchesPlayed := s.matchesPlayed + 1 }

/-- `GlickoRankingSystem.run_tournament` after the pairings are fixed: each
pairing's match is conducted, failures yield no result, successes update the
win/loss/match counters, and the collected results are applied as one rating
period; the second component is the list the match history is recorded
from. -/
noncomputable def runTournament (tau : ℝ) (fuel : ℕ) (st : List GStory)
    (pairs : List PairSpec) : List GStory × List MRes :=
  let results := pairs.filterMap fun p => conductMatch p.s1 p.s2 p.coin p.judge p.ts
  let st1 := results.foldl applyTally st
  (processRatingPeriod tau fuel (st.map fun s => s.id) results st1, results)

/-- The inner pairing loop of `get_match_pairs`: `available.pop()` takes the
last element, so consecutive elements are paired starting from the end of the
shuffled list; `pairAux` consumes the reversed list two at a time. -/
def pairAux {α : Type*} : List α → List (α × α)
  | a :: b :: rest => (a, b) :: pairAux rest
  | _ => []

/-- One round of `get_match_pairs` applied to a shuffled copy of the
stories list. -/
def pairOff {α : Type*} (l : List α) : List (α × α) :=
  pairAux l.reverse

/-- `GlickoRankingSystem.get_match_pairs`: empty for fewer than two stories;
otherwise each round pairs up one shuffled copy of the stories list
(`shuffles` models the `random.shuffle` outcomes, one per round). -/
def getMatchPairs {α : Type*} (stories : List α) (shuffles : List (List α)) :
    List (α × α) :=
  if stories.length < 2 then [] else (shuffles.map pairOff).flatten

/-- A persisted story row of story_generator.py (the `stories` table):
rating fields are exact rationals here since promotion and variant creation
only copy and reset them. -/
structure StoryRec where
  storyId : ℕ
  batchNumber : ℕ
  rating : ℚ
  rd : ℚ
  sigma : ℚ
  generationType : String
  previousBatchRating : Option ℚ
  parentStoryId : Option ℕ
  matchesPlayed : ℕ
  wins : ℕ
  losses : ℕ
deriving DecidableEq

/-- The per-story UPDATE of `NextBatchGenerator._promote_stories_to_new_batch`:
the story moves to the next batch, RD and volatility are reset to the
configured initial values, the generation type becomes
"original_top_performer", `previous_batch_rating` is set to the current
rating, and the match statistics are zeroed; the rating itself is not
touched. -/
def promoteStory (nextBatch : ℕ) (initialRd initialVolatility : ℚ)
    (s : StoryRec) : StoryRec :=
  { s with
    batchNumber := nextBatch
    rd := initialRd
    sigma := initialVolatility
    generationType := "original_top_performer"
    previousBatchRating := some s.rating
    matchesPlayed := 0, wins := 0, losses := 0 }

/-- `NextBatchGenerator._promote_stories_to_new_batch` over the selected top
stories. -/
def promoteStoriesToNewBatch (nextBatch : ℕ) (initialRd initialVolatility : ℚ)
    (top : List StoryRec) : List StoryRec :=
  top.map (promoteStory nextBatch initialRd initialVolatility)

/-- The variant record built by `NextBatchGenerator.generate_single_variant`:
the parent rating is inherited, RD and volatility reset,
`previous_batch_rating` set to the parent rating, statistics zeroed. -/
def mkVariant (parent : StoryRec) (newId : ℕ) (batch : ℕ)
    (initialRd initialVolatility : ℚ) : StoryRec :=
  { storyId := newId
    batchNumber := batch
    rating := parent.rating
    rd := initialRd
    sigma := initialVolatility
    generationType := "variant"
    previousBatchRating := some parent.rating
    parentStoryId := some parent.storyId
    matchesPlayed := 0, wins := 0, losses := 0 }

/-- Modelled from the spec (section 4.3 of the design document), not from any
code of the repository: the average drift
`mean(rating_after_period - previous_period_rating)` over the promoted
entities.  No function of the repository computes this quantity; it exists
here only to state the drift-correction claim against the source. -/
def specDriftAvg (top : List StoryRec) : ℚ :=
  ((top.map fun t => t.rating - t.previousBatchRating.getD t.rating).sum) /
    top.length

/-! ## Theorems -/

theorem map_sub_self_sum (l : List StoryRec) :
    ((l.map fun _ => (0 : ℚ)).sum) = 0 := by
  induction l with
  | nil => rfl
  | cons a t ih => simp [ih]

/-- C1 (counterexample).  The generation-boundary code applies no drift
correction: for a promoted story with rating 1600 whose
`previous_batch_rating` from the prior boundary is 1500 (so its drift, and
the average drift, is 100), the rating the promotion step persists is not
`rating - average drift` as the claim states — the rating is carried over
unchanged. -/
theorem c1_no_drift_correction_cex :
    (promoteStory 1 350 (6 / 100)
          ⟨10, 0, 1600, 80, 3 / 50, "original_top_performer", some 1500, none, 4, 3, 1⟩).rating ≠
      (1600 : ℚ) -
        specDriftAvg
          [⟨10, 0, 1600, 80, 3 / 50, "original_top_performer", some 1500, none, 4, 3, 1⟩] := by
  norm_num [promoteStory, specDriftAvg]

/-- C1 (amended).  At the generation boundary no drift correction is
applied: promotion carries every top story's rating forward unchanged (and
variants inherit the parent rating unchanged); the mean of
`rating - previous_batch_rating` over the promoted batch is 0 only because
`previous_batch_rating` is overwritten with the current rating at promotion
time, not because any average drift is subtracted. -/
theorem c1_promotion_carries_ratings (nextBatch : ℕ) (rdInit volInit : ℚ)
    (top : List StoryRec) (parent : StoryRec) (newId batch : ℕ) :
    ((promoteStoriesToNewBatch nextBatch rdInit volInit top).map fun s => s.rating) =
        (top.map fun s => s.rating) ∧
      specDriftAvg (promoteStoriesToNewBatch nextBatch rdInit volInit top) = 0 ∧
        (mkVariant parent newId batch rdInit volInit).rating = parent.rating ∧
          (mkVariant parent newId batch rdInit volInit).previousBatchRating =
            some parent.rating := by
  refine ⟨?_, ?_, rfl, rfl⟩
  · simp [promoteStoriesToNewBatch, promoteStory]
  · unfold specDriftAvg promoteStoriesToNewBatch
    rw [List.map_map]
    have hz : ((fun t : StoryRec => t.rating - t.previousBatchRating.getD t.rating) ∘
        promoteStory nextBatch rdInit volInit) = fun _ => (0 : ℚ) := by
      funext s; simp [promoteStory]
    rw [hz, map_sub_self_sum, zero_div]

/-- C10.  Scale consistency: a freshly constructed `Story` satisfies
`rating = 173.7178 * _mu + 1500` and `rd = 173.7178 * _phi`, and both
branches of `_update_player` re-establish the same equations through
`update_public_ratings`, so successive rating periods start from internal
values consistent with the public ones. -/
theorem c10_scale_consistency (i : ℕ) (r rdv sg tau : ℝ) (fuel : ℕ)
    (p : GStory) (pairs : List OppEntry) :
    ((mkStory i r rdv sg).rating = scale * (mkStory i r rdv sg).mu + 1500 ∧
        (mkStory i r rdv sg).rd = scale * (mkStory i r rdv sg).phi) ∧
      ((updatePlayer tau fuel p pairs).rating =
            scale * (updatePlayer tau fuel p pairs).mu + 1500 ∧
          (updatePlayer tau fuel p pairs).rd =
            scale * (updatePlayer tau fuel p pairs).phi) := by
  have hs : scale ≠ 0 := by norm_num [scale]
  refine ⟨⟨?_, ?_⟩, ?_⟩
  · simp only [mkStory]
    field_simp
  · simp only [mkStory]
    field_simp
  · unfold updatePlayer
    split
    · exact ⟨rfl, rfl⟩
    · exact ⟨rfl, rfl⟩

/-- C7.  The position swap performed before judging is correctly inverted:
for either coin outcome and either verdict, the recorded winner is exactly
the story whose text occupied the judge's winning position
(`model_1` = first position of the judged pair), and the loser is the other
story of the pair. -/
theorem c7_swap_inversion (s1 s2 : ℕ) (coin : Bool) (w : Verdict)
    (rs ts : String) (h : s1 ≠ s2) :
    conductMatch s1 s2 coin (some (w, rs)) ts =
      some
        { story1 := s1, story2 := s2
          winner :=
            if w = Verdict.model1 then (judgedPair s1 s2 coin).1
            else (judgedPair s1 s2 coin).2
          loser :=
            if w = Verdict.model1 then (judgedPair s1 s2 coin).2
            else (judgedPair s1 s2 coin).1
          reasoning := rs, timestamp := ts } := by
  cases coin <;> cases w <;>
    simp [conductMatch, judgedPair, h, Ne.symm h]

/-- Witness for C7 at a concrete input: stories 1 and 2, swapped positions,
verdict `model_2` (the second judged position, which holds story 1). -/
theorem c7_swap_inversion_witness :
    conductMatch 1 2 false (some (Verdict.model2, "r")) "t" =
      some
        { story1 := 1, story2 := 2
          winner :=
            if Verdict.model2 = Verdict.model1 then (judgedPair 1 2 false).1
            else (judgedPair 1 2 false).2
          loser :=
            if Verdict.model2 = Verdict.model1 then (judgedPair 1 2 false).2
            else (judgedPair 1 2 false).1
          reasoning := "r", timestamp := "t" } :=
  c7_swap_inversion 1 2 false Verdict.model2 "r" "t" (by decide)

theorem filterMap_filter_isSome {α β : Type*} (f : α → Option β) (g : α → Bool)
    (H : ∀ x, (f x).isSome = g x) :
    ∀ l : List α, (l.filter g).filterMap f = l.filterMap f
  | [] => rfl
  | a :: t => by
    have ih := filterMap_filter_isSome f g H t
    by_cases h : g a = true
    · simp only [List.filter_cons, h, if_true, List.filterMap_cons, ih]
    · have hf : f a = none := by
        rw [← Option.not_isSome_iff_eq_none, H a]
        exact h
      simp only [List.filter_cons, h, Bool.false_eq_true, if_false,
        List.filterMap_cons, hf, ih]

theorem conductMatch_isSome (p : PairSpec) :
    (conductMatch p.s1 p.s2 p.coin p.judge p.ts).isSome = p.judge.isSome := by
  cases hj : p.judge with
  | none => rfl
  | some v =>
    obtain ⟨w, rs⟩ := v
    rfl

theorem conductMatch_filter (pairs : List PairSpec) :
    ((pairs.filter fun p => p.judge.isSome).filterMap fun p =>
        conductMatch p.s1 p.s2 p.coin p.judge p.ts) =
      pairs.filterMap fun p => conductMatch p.s1 p.s2 p.coin p.judge p.ts :=
  filterMap_filter_isSome _ _ (fun p => conductMatch_isSome p) pairs

/-- C5.  A pairing whose judge call raises or times out produces no result
(`conduct_match` returns none), and the whole tournament — statistics
tallies, the rating-period update of every story, and the recorded match
history — is identical to the tournament run on the successful pairings
alone: failed matches are dropped, never retried, never recorded and never
influence any rating, while the remaining matches still proceed. -/
theorem c5_failed_matches_dropped (tau : ℝ) (fuel : ℕ) (st : List GStory)
    (pairs : List PairSpec) (a b : ℕ) (c : Bool) (t : String) :
    conductMatch a b c none t = none ∧
      runTournament tau fuel st pairs =
        runTournament tau fuel st (pairs.filter fun p => p.judge.isSome) := by
  refine ⟨rfl, ?_⟩
  unfold runTournament
  rw [conductMatch_filter]

theorem findK_invariant (f : ℝ → ℝ) (a tau : ℝ) :
    ∀ fuel k0, k0 ≤ findK f a tau fuel k0 ∧
      ∀ j : ℕ, k0 ≤ j → j < findK f a tau fuel k0 → f (a - j * tau) < 0 := by
  intro fuel
  induction fuel with
  | zero =>
    intro k0
    exact ⟨le_rfl, fun j hj hlt => absurd hlt (by simp [findK]; omega)⟩
  | succ n ih =>
    intro k0
    by_cases hneg : f (a - k0 * tau) < 0
    · have hrec := ih (k0 + 1)
      constructor
      · calc k0 ≤ k0 + 1 := Nat.le_succ _
          _ ≤ findK f a tau n (k0 + 1) := hrec.1
          _ = findK f a tau (n + 1) k0 := by simp [findK, hneg]
      · intro j hj hlt
        rcases eq_or_lt_of_le hj with rfl | hj'
        · exact hneg
        · have : findK f a tau (n + 1) k0 = findK f a tau n (k0 + 1) := by
            simp [findK, hneg]
          exact hrec.2 j hj' (by rwa [this] at hlt)
    · have : findK f a tau (n + 1) k0 = k0 := by simp [findK, hneg]
      rw [this]
      exact ⟨le_rfl, fun j hj hlt => absurd hlt (by omega)⟩

/-- C8 (amended).  The initial upper bracket of the volatility solve applies
the logarithm exactly when `delta^2 - phi^2 - v` is strictly positive (so the
logarithm never sees a non-positive argument); otherwise `B = a - k*tau`
for some integer `k >= 1` reached by stepping while `f` stays negative:
every index stepped past had `f(a - j*tau) < 0`, i.e. the loop stops at the
first non-negative value of `f`, not when `f` becomes negative. -/
theorem c8_bracket_guard (f : ℝ → ℝ) (a tau delta phi v : ℝ) (fuel : ℕ) :
    (phi ^ 2 + v < delta ^ 2 →
        bracketB f a tau delta phi v fuel = Real.log (delta ^ 2 - phi ^ 2 - v) ∧
          0 < delta ^ 2 - phi ^ 2 - v) ∧
      (delta ^ 2 ≤ phi ^ 2 + v →
        ∃ k : ℕ, 1 ≤ k ∧ bracketB f a tau delta phi v fuel = a - k * tau ∧
          ∀ j : ℕ, 1 ≤ j → j < k → f (a - j * tau) < 0) := by
  constructor
  · intro h
    exact ⟨by rw [bracketB, if_pos h], by linarith⟩
  · intro h
    refine ⟨findK f a tau fuel 1, (findK_invariant f a tau fuel 1).1, ?_, ?_⟩
    · rw [bracketB, if_neg (not_lt.mpr h)]
    · exact fun j hj hlt => (findK_invariant f a tau fuel 1).2 j hj hlt

theorem pairAux_length {α : Type*} : ∀ l : List α, (pairAux l).length = l.length / 2
  | [] => by simp [pairAux]
  | [_] => by simp [pairAux]
  | a :: b :: rest => by
    show (pairAux rest).length + 1 = (rest.length + 1 + 1) / 2
    rw [pairAux_length rest]
    omega

theorem pairAux_mem {α : Type*} :
    ∀ (l : List α) (p : α × α), p ∈ pairAux l → p.1 ∈ l ∧ p.2 ∈ l
  | [], p, hp => by simp [pairAux] at hp
  | [_], p, hp => by simp [pairAux] at hp
  | a :: b :: rest, p, hp => by
    rcases List.mem_cons.mp hp with h | h
    · subst h
      exact ⟨List.mem_cons_self _ _, List.mem_cons_of_mem _ (List.mem_cons_self _ _)⟩
    · have := pairAux_mem rest p h
      exact ⟨List.mem_cons_of_mem _ (List.mem_cons_of_mem _ this.1),
        List.mem_cons_of_mem _ (List.mem_cons_of_mem _ this.2)⟩

theorem pairAux_ne {α : Type*} :
    ∀ l : List α, l.Nodup → ∀ p ∈ pairAux l, p.1 ≠ p.2
  | [], _, p, hp => by simp [pairAux] at hp
  | [_], _, p, hp => by simp [pairAux] at hp
  | a :: b :: rest, hnd, p, hp => by
    rcases List.mem_cons.mp hp with h | h
    · subst h
      have hnotin : a ∉ b :: rest := (List.nodup_cons.mp hnd).1
      exact fun e =>
        hnotin (by rw [show a = b from e]; exact List.mem_cons_self _ _)
    · exact pairAux_ne rest ((List.nodup_cons.mp (List.nodup_cons.mp hnd).2).2) p h

theorem pairOff_rounds_length {α : Type*} (stories : List α) :
    ∀ sh : List (List α), (∀ l ∈ sh, l.Perm stories) →
      ((sh.map pairOff).flatten).length = sh.length * (stories.length / 2)
  | [], _ => by simp
  | l :: rest, h => by
    have ih := pairOff_rounds_length stories rest fun x hx => h x (List.mem_cons_of_mem _ hx)
    have hl : l.length = stories.length := (h l (List.mem_cons_self _ _)).length_eq
    simp only [List.map_cons, List.flatten_cons, List.length_append, ih, pairOff,
      pairAux_length, List.length_reverse, hl, List.length_cons]
    ring

/-- C6.  `get_match_pairs` on a story list `S` and `R` rounds (one shuffled
copy of `S` per round) yields at most `R * floor(|S| / 2)` pairings, each
pairing two distinct stories of `S` (consecutive entries of the shuffled
copy, taken from its end, with an odd one discarded), and yields the empty
list whenever `|S| < 2`. -/
theorem c6_match_pairs_bound {α : Type*} (stories : List α)
    (shuffles : List (List α)) (R : ℕ) (hR : shuffles.length = R)
    (hperm : ∀ l ∈ shuffles, l.Perm stories) (hnd : stories.Nodup) :
    (getMatchPairs stories shuffles).length ≤ R * (stories.length / 2) ∧
      (∀ p ∈ getMatchPairs stories shuffles,
          p.1 ∈ stories ∧ p.2 ∈ stories ∧ p.1 ≠ p.2) ∧
        (stories.length < 2 → getMatchPairs stories shuffles = []) := by
  by_cases hlen : stories.length < 2
  · rw [getMatchPairs, if_pos hlen]
    exact ⟨Nat.zero_le _, fun p hp => absurd hp (List.not_mem_nil p), fun _ => rfl⟩
  · rw [getMatchPairs, if_neg hlen]
    refine ⟨?_, ?_, fun h => absurd h hlen⟩
    · rw [pairOff_rounds_length stories shuffles hperm, hR]
    · intro p hp
      obtain ⟨block, hblock, hpblock⟩ := List.mem_flatten.mp hp
      obtain ⟨l, hl, rfl⟩ := List.mem_map.mp hblock
      have hmem := pairAux_mem l.reverse p hpblock
      have hperml := hperm l hl
      have h1 : p.1 ∈ stories := hperml.mem_iff.mp (List.mem_reverse.mp hmem.1)
      have h2 : p.2 ∈ stories := hperml.mem_iff.mp (List.mem_reverse.mp hmem.2)
      have hndl : l.reverse.Nodup :=
        List.nodup_reverse.mpr (hperml.nodup_iff.mpr hnd)
      exact ⟨h1, h2, pairAux_ne l.reverse hndl p hpblock⟩

/-- Witness for C6 at a concrete input: five stories, three rounds, so at
most `3 * 2 = 6` pairings, each of two distinct stories. -/
theorem c6_match_pairs_bound_witness :
    (getMatchPairs [0, 1, 2, 3, 4] [[0, 1, 2, 3, 4], [0, 1, 2, 3, 4], [0, 1, 2, 3, 4]]).length ≤
        3 * (([0, 1, 2, 3, 4] : List ℕ).length / 2) ∧
      (∀ p ∈ getMatchPairs [0, 1, 2, 3, 4]
            [[0, 1, 2, 3, 4], [0, 1, 2, 3, 4], [0, 1, 2, 3, 4]],
          p.1 ∈ ([0, 1, 2, 3, 4] : List ℕ) ∧ p.2 ∈ ([0, 1, 2, 3, 4] : List ℕ) ∧
            p.1 ≠ p.2) ∧
        (([0, 1, 2, 3, 4] : List ℕ).length < 2 →
          getMatchPairs [0, 1, 2, 3, 4]
              [[0, 1, 2, 3, 4], [0, 1, 2, 3, 4], [0, 1, 2, 3, 4]] = []) :=
  c6_match_pairs_bound [0, 1, 2, 3, 4]
    [[0, 1, 2, 3, 4], [0, 1, 2, 3, 4], [0, 1, 2, 3, 4]] 3 rfl
    (by
      intro l hl
      simp only [List.mem_cons, List.not_mem_nil, or_false] at hl
      rcases hl with rfl | rfl | rfl <;> exact List.Perm.refl _)
    (by decide)

theorem entriesFor_perm (i : ℕ) {rs rs' : List MRes} (h : rs.Perm rs') :
    (entriesFor i rs).Perm (entriesFor i rs') := by
  induction h with
  | nil => exact List.Perm.refl _
  | cons x _ ih => exact ih.append_left (blockOf i x)
  | swap x y l =>
    show (blockOf i y ++ (blockOf i x ++ entriesFor i l)).Perm
      (blockOf i x ++ (blockOf i y ++ entriesFor i l))
    rw [← List.append_assoc, ← List.append_assoc]
    exact List.perm_append_comm.append_right (entriesFor i l)
  | trans _ _ ih1 ih2 => exact ih1.trans ih2

theorem vSumOf_perm (mu : ℝ) {ps ps' : List OppEntry} (h : ps.Perm ps') :
    vSumOf mu ps = vSumOf mu ps' :=
  (h.map _).sum_eq

theorem deltaSumOf_perm (mu : ℝ) {ps ps' : List OppEntry} (h : ps.Perm ps') :
    deltaSumOf mu ps = deltaSumOf mu ps' :=
  (h.map _).sum_eq

theorem updatePlayerFull_congr (tau : ℝ) (fuel : ℕ) (p : GStory)
    {ps ps' : List OppEntry} (h1 : vSumOf p.mu ps = vSumOf p.mu ps')
    (h2 : deltaSumOf p.mu ps = deltaSumOf p.mu ps') :
    updatePlayerFull tau fuel p ps = updatePlayerFull tau fuel p ps' := by
  have hv : vOf p.mu ps = vOf p.mu ps' := by unfold vOf; rw [h1]
  have hd : deltaOf p.mu ps = deltaOf p.mu ps' := by unfold deltaOf; rw [hv, h2]
  have hfn : fOf tau p ps = fOf tau p ps' := by unfold fOf; rw [hv, hd]
  have hB : BOf tau fuel p ps = BOf tau fuel p ps' := by
    unfold BOf; rw [hv, hd, hfn]
  have hA : AfinalOf tau fuel p ps = AfinalOf tau fuel p ps' := by
    unfold AfinalOf; rw [hfn, hB]
  have hsig : sigmaNew tau fuel p ps = sigmaNew tau fuel p ps' := by
    unfold sigmaNew; rw [hA]
  have hstar : phiStarOf tau fuel p ps = phiStarOf tau fuel p ps' := by
    unfold phiStarOf; rw [hsig]
  have hphi : phiNew tau fuel p ps = phiNew tau fuel p ps' := by
    unfold phiNew; rw [hstar, hv]
  unfold updatePlayerFull
  rw [hsig, hphi, h2]

theorem updatePlayer_perm (tau : ℝ) (fuel : ℕ) (p : GStory)
    {ps ps' : List OppEntry} (h : ps.Perm ps') :
    updatePlayer tau fuel p ps = updatePlayer tau fuel p ps' := by
  cases ps with
  | nil =>
    have : ps' = [] := h.symm.eq_nil
    rw [this]
  | cons q qs =>
    cases ps' with
    | nil => exact absurd h.eq_nil (List.cons_ne_nil q qs)
    | cons q' qs' =>
      simp only [updatePlayer, List.isEmpty_cons, Bool.false_eq_true, if_false]
      exact updatePlayerFull_congr tau fuel p (vSumOf_perm _ h) (deltaSumOf_perm _ h)

theorem foldl_congr_fun {α β : Type*} (f g : β → α → β) (h : ∀ b a, f b a = g b a) :
    ∀ (l : List α) (b : β), l.foldl f b = l.foldl g b
  | [], _ => rfl
  | a :: t, b => by
    rw [List.foldl_cons, List.foldl_cons, h b a]
    exact foldl_congr_fun f g h t _

theorem periodStep_perm (tau : ℝ) (fuel : ℕ) {rs rs' : List MRes}
    (h : rs.Perm rs') (st : List GStory) (i : ℕ) :
    periodStep tau fuel rs st i = periodStep tau fuel rs' st i := by
  have hf : ∀ s : GStory,
      updatePlayer tau fuel s (oppPairs st i rs) =
        updatePlayer tau fuel s (oppPairs st i rs') := fun s =>
    updatePlayer_perm tau fuel s ((entriesFor_perm i h).map _)
  simp only [periodStep, updateAt]
  refine List.map_congr_left fun s _ => ?_
  by_cases hs : s.id = i <;> simp [hs, hf s]

/-- C3.  Batch order independence: processing a rating period on any
permutation of the match-result list yields identical post-period rating, RD
and volatility for every story, for every update order and starting state —
each story's accumulated (opponent, outcome) list is permuted, and the
Glicko-2 update depends on it only through the sums `v_sum` and
`delta_sum`. -/
theorem c3_batch_order_independence (tau : ℝ) (fuel : ℕ) (ids : List ℕ)
    (st : List GStory) (rs rs' : List MRes) (h : rs.Perm rs') :
    processRatingPeriod tau fuel ids rs st = processRatingPeriod tau fuel ids rs' st :=
  foldl_congr_fun (periodStep tau fuel rs) (periodStep tau fuel rs')
    (fun b a => periodStep_perm tau fuel h b a) ids st

/-- Witness for C3 at a concrete input: two default stories, two results in
the two possible orders (each story beats the other once). -/
theorem c3_batch_order_independence_witness :
    (([⟨1, 2, 1, 2, "", ""⟩, ⟨1, 2, 2, 1, "", ""⟩] : List MRes).Perm
        [⟨1, 2, 2, 1, "", ""⟩, ⟨1, 2, 1, 2, "", ""⟩]) ∧
      processRatingPeriod (1 / 2) 100 [1, 2]
          [⟨1, 2, 1, 2, "", ""⟩, ⟨1, 2, 2, 1, "", ""⟩]
          [mkStory 1 1500 350 0.06, mkStory 2 1500 350 0.06] =
        processRatingPeriod (1 / 2) 100 [1, 2]
          [⟨1, 2, 2, 1, "", ""⟩, ⟨1, 2, 1, 2, "", ""⟩]
          [mkStory 1 1500 350 0.06, mkStory 2 1500 350 0.06] :=
  ⟨List.Perm.swap _ _ _,
    c3_batch_order_independence (1 / 2) 100 [1, 2]
      [mkStory 1 1500 350 0.06, mkStory 2 1500 350 0.06]
      [⟨1, 2, 1, 2, "", ""⟩, ⟨1, 2, 2, 1, "", ""⟩]
      [⟨1, 2, 2, 1, "", ""⟩, ⟨1, 2, 1, 2, "", ""⟩] (List.Perm.swap _ _ _)⟩

theorem scale_pos : (0 : ℝ) < scale := by norm_num [scale]

theorem gG_pos (phi : ℝ) : 0 < gG phi := by
  unfold gG
  have hpi := Real.pi_ne_zero
  positivity

theorem EG_pos (mu om op : ℝ) : 0 < EG mu om op := by
  unfold EG
  positivity

theorem EG_lt_one (mu om op : ℝ) : EG mu om op < 1 := by
  unfold EG
  rw [div_lt_one (by positivity)]
  linarith [Real.exp_pos (-gG op * (mu - om))]

theorem vSumOf_pos (mu : ℝ) (ps : List OppEntry) (h : ps ≠ []) :
    0 < vSumOf mu ps := by
  unfold vSumOf
  apply List.sum_pos
  · intro x hx
    obtain ⟨q, _, rfl⟩ := List.mem_map.mp hx
    have h1 := gG_pos q.2.1
    have h2 := EG_pos mu q.1 q.2.1
    have h3 := EG_lt_one mu q.1 q.2.1
    have : (0 : ℝ) < 1 - EG mu q.1 q.2.1 := by linarith
    positivity
  · exact fun hmap => h (List.map_eq_nil_iff.mp hmap)

theorem vOf_pos (mu : ℝ) (ps : List OppEntry) (h : ps ≠ []) : 0 < vOf mu ps :=
  one_div_pos.mpr (vSumOf_pos mu ps h)

theorem sigmaNew_pos (tau : ℝ) (fuel : ℕ) (p : GStory) (ps : List OppEntry) :
    0 < sigmaNew tau fuel p ps :=
  Real.exp_pos _

theorem phiStarOf_pos (tau : ℝ) (fuel : ℕ) (p : GStory) (ps : List OppEntry) :
    0 < phiStarOf tau fuel p ps := by
  unfold phiStarOf
  have h := sigmaNew_pos tau fuel p ps
  apply Real.sqrt_pos.mpr
  nlinarith [sq_nonneg p.phi]

theorem phiNew_pos (tau : ℝ) (fuel : ℕ) (p : GStory) (ps : List OppEntry)
    (h : ps ≠ []) : 0 < phiNew tau fuel p ps := by
  unfold phiNew
  have h1 := phiStarOf_pos tau fuel p ps
  have h2 := vOf_pos p.mu ps h
  have h3 : 0 < 1 / phiStarOf tau fuel p ps ^ 2 + 1 / vOf p.mu ps := by positivity
  exact one_div_pos.mpr (Real.sqrt_pos.mpr h3)

theorem updatePlayer_id (tau : ℝ) (fuel : ℕ) (p : GStory) (ps : List OppEntry) :
    (updatePlayer tau fuel p ps).id = p.id := by
  unfold updatePlayer
  split
  · rfl
  · rfl

theorem updatePlayer_rd_scale (tau : ℝ) (fuel : ℕ) (p : GStory) (ps : List OppEntry) :
    (updatePlayer tau fuel p ps).rd = scale * (updatePlayer tau fuel p ps).phi := by
  unfold updatePlayer
  split
  · rfl
  · rfl

theorem updatePlayer_phi_pos (tau : ℝ) (fuel : ℕ) (p : GStory)
    (ps : List OppEntry) (h : 0 < p.phi) : 0 < (updatePlayer tau fuel p ps).phi := by
  unfold updatePlayer
  split
  · show 0 < Real.sqrt (p.phi ^ 2 + p.sigma ^ 2)
    apply Real.sqrt_pos.mpr
    nlinarith [sq_nonneg p.sigma]
  · next hne =>
    show 0 < phiNew tau fuel p ps
    apply phiNew_pos
    intro e
    exact hne (by rw [e]; rfl)

theorem updatePlayer_sigma_pos (tau : ℝ) (fuel : ℕ) (p : GStory)
    (ps : List OppEntry) (h : 0 < p.sigma) :
    0 < (updatePlayer tau fuel p ps).sigma := by
  unfold updatePlayer
  split
  · exact h
  · exact Real.exp_pos _

theorem deltaSumOf_single_win_pos (mu om op : ℝ) :
    0 < deltaSumOf mu [(om, op, 1)] := by
  unfold deltaSumOf
  simp only [List.map_cons, List.map_nil, List.sum_cons, List.sum_nil, add_zero]
  have h1 := gG_pos op
  have h2 := EG_lt_one mu om op
  exact mul_pos h1 (by linarith)

theorem updatePlayer_mu_lt_win (tau : ℝ) (fuel : ℕ) (p : GStory) (om op : ℝ) :
    p.mu < (updatePlayer tau fuel p [(om, op, 1)]).mu := by
  have hne : ([(om, op, (1 : ℝ))] : List OppEntry) ≠ [] := by simp
  have hmu : (updatePlayer tau fuel p [(om, op, 1)]).mu =
      p.mu + phiNew tau fuel p [(om, op, 1)] ^ 2 * deltaSumOf p.mu [(om, op, 1)] := rfl
  rw [hmu]
  have h1 : 0 < phiNew tau fuel p [(om, op, 1)] := phiNew_pos tau fuel p _ hne
  have h2 := deltaSumOf_single_win_pos p.mu om op
  nlinarith [mul_pos (pow_pos h1 2) h2]

/-- C2 (code bug).  Snapshot isolation fails in `_process_rating_period`:
with two default stories and the single result "story 1 beats story 2",
after the first loop iteration updates story 1 in place, the opponent values
that story 2's update will read (`oppPairs` of the stepped state) differ
from the rating-period-start values (`oppPairs` of the initial state),
because story 1's `_mu` strictly increased when its win was applied. -/
theorem c2_snapshot_isolation_fails :
    oppPairs
        (periodStep (1 / 2) 100 [⟨1, 2, 1, 2, "", ""⟩]
          [mkStory 1 1500 350 0.06, mkStory 2 1500 350 0.06] 1)
        2 [⟨1, 2, 1, 2, "", ""⟩] ≠
      oppPairs [mkStory 1 1500 350 0.06, mkStory 2 1500 350 0.06] 2
        [⟨1, 2, 1, 2, "", ""⟩] := by
  set A := mkStory 1 1500 350 0.06 with hA
  set B := mkStory 2 1500 350 0.06 with hB
  have hAid : A.id = 1 := rfl
  have hBid : B.id = 2 := rfl
  have hentries1 : entriesFor 1 [(⟨1, 2, 1, 2, "", ""⟩ : MRes)] = [(2, (1 : ℝ))] := by
    simp [entriesFor, blockOf]
  have hentries2 : entriesFor 2 [(⟨1, 2, 1, 2, "", ""⟩ : MRes)] = [(1, (0 : ℝ))] := by
    simp [entriesFor, blockOf]
  have hlook1 : lookup [A, B] 1 = A := by
    simp [lookup, List.find?, hAid]
  have hlook2 : lookup [A, B] 2 = B := by
    simp [lookup, List.find?, hAid, hBid]
  have hopp1 : oppPairs [A, B] 1 [(⟨1, 2, 1, 2, "", ""⟩ : MRes)] = [(B.mu, B.phi, 1)] := by
    simp [oppPairs, hentries1, hlook2]
  have hstep : periodStep (1 / 2) 100 [(⟨1, 2, 1, 2, "", ""⟩ : MRes)] [A, B] 1 =
      [updatePlayer (1 / 2) 100 A [(B.mu, B.phi, 1)], B] := by
    simp only [periodStep, updateAt, List.map_cons, List.map_nil, hopp1]
    rw [if_pos hAid, if_neg (by rw [hBid]; norm_num)]
  have hlookAfter :
      lookup [updatePlayer (1 / 2) 100 A [(B.mu, B.phi, 1)], B] 1 =
        updatePlayer (1 / 2) 100 A [(B.mu, B.phi, 1)] := by
    simp [lookup, List.find?, updatePlayer_id, hAid]
  have hoppAfter :
      oppPairs [updatePlayer (1 / 2) 100 A [(B.mu, B.phi, 1)], B] 2
          [(⟨1, 2, 1, 2, "", ""⟩ : MRes)] =
        [((updatePlayer (1 / 2) 100 A [(B.mu, B.phi, 1)]).mu,
          (updatePlayer (1 / 2) 100 A [(B.mu, B.phi, 1)]).phi, 0)] := by
    simp only [oppPairs, hentries2, List.map_cons, List.map_nil, hlookAfter]
  have hoppBase : oppPairs [A, B] 2 [(⟨1, 2, 1, 2, "", ""⟩ : MRes)] =
      [(A.mu, A.phi, 0)] := by
    simp [oppPairs, hentries2, hlook1]
  rw [hstep, hoppAfter, hoppBase]
  intro heq
  injection heq with h1 _
  injection h1 with h2 _
  have hlt := updatePlayer_mu_lt_win (1 / 2) 100 A B.mu B.phi
  rw [h2] at hlt
  exact lt_irrefl _ hlt

/-- C9 (amended).  For any sequence of rating-period updates applied to a
story whose internal deviation, public RD and volatility start strictly
positive, RD (and the internal `_phi`) remains strictly positive throughout:
the zero-match branch takes a square root of a positive sum, and the full
update inverts a positive square root; no floor is applied anywhere. -/
theorem c9_rd_stays_positive (tau : ℝ) (fuel : ℕ) (s : GStory)
    (updates : List (List OppEntry)) (hphi : 0 < s.phi) (hrd : 0 < s.rd)
    (hsig : 0 < s.sigma) :
    0 < (updates.foldl (updatePlayer tau fuel) s).phi ∧
      0 < (updates.foldl (updatePlayer tau fuel) s).rd := by
  induction updates generalizing s with
  | nil => exact ⟨hphi, hrd⟩
  | cons ps rest ih =>
    simp only [List.foldl_cons]
    apply ih
    · exact updatePlayer_phi_pos tau fuel s ps hphi
    · rw [updatePlayer_rd_scale]
      exact mul_pos scale_pos (updatePlayer_phi_pos tau fuel s ps hphi)
    · exact updatePlayer_sigma_pos tau fuel s ps hsig

/-- Witness for C9 at a concrete input: a default story, one idle period
followed by one period with a single win. -/
theorem c9_rd_stays_positive_witness :
    (0 < (mkStory 1 1500 350 0.06).phi ∧ 0 < (mkStory 1 1500 350 0.06).rd ∧
        0 < (mkStory 1 1500 350 0.06).sigma) ∧
      (0 < (([[], [((0 : ℝ), 2, 1)]] : List (List OppEntry)).foldl
            (updatePlayer (1 / 2) 100) (mkStory 1 1500 350 0.06)).phi ∧
        0 < (([[], [((0 : ℝ), 2, 1)]] : List (List OppEntry)).foldl
            (updatePlayer (1 / 2) 100) (mkStory 1 1500 350 0.06)).rd) :=
  ⟨⟨by norm_num [mkStory, scale], by norm_num [mkStory], by norm_num [mkStory]⟩,
    c9_rd_stays_positive (1 / 2) 100 (mkStory 1 1500 350 0.06)
      [[], [((0 : ℝ), 2, 1)]] (by norm_num [mkStory, scale])
      (by norm_num [mkStory]) (by norm_num [mkStory])⟩

/-- C4 (amended).  For a story with zero matches in the period (empty
opponent list) whose public and internal fields are consistent, the update
leaves rating and volatility unchanged, sets the internal deviation to
`phi' = sqrt(phi^2 + sigma^2)`, and therefore sets the public RD to
`sqrt(RD^2 + (173.7178 * volatility)^2)` — the volatility enters the
public-scale recurrence multiplied by the scale constant, because sigma is
not rescaled between the two scales. -/
theorem c4_zero_match_update (tau : ℝ) (fuel : ℕ) (s : GStory)
    (h1 : s.rating = scale * s.mu + 1500) (h2 : s.rd = scale * s.phi) :
    (updatePlayer tau fuel s []).rating = s.rating ∧
      (updatePlayer tau fuel s []).sigma = s.sigma ∧
        (updatePlayer tau fuel s []).phi = Real.sqrt (s.phi ^ 2 + s.sigma ^ 2) ∧
          (updatePlayer tau fuel s []).rd =
            Real.sqrt (s.rd ^ 2 + (scale * s.sigma) ^ 2) := by
  refine ⟨?_, rfl, rfl, ?_⟩
  · show scale * s.mu + 1500 = s.rating
    rw [h1]
  · show scale * Real.sqrt (s.phi ^ 2 + s.sigma ^ 2) = _
    rw [h2, mul_pow, mul_pow, ← mul_add, Real.sqrt_mul (sq_nonneg scale),
      Real.sqrt_sq (le_of_lt scale_pos)]

/-- Witness for C4 at a concrete input: the default story (rating 1500,
RD 350, volatility 0.06). -/
theorem c4_zero_match_update_witness :
    ((mkStory 1 1500 350 0.06).rating =
          scale * (mkStory 1 1500 350 0.06).mu + 1500 ∧
        (mkStory 1 1500 350 0.06).rd = scale * (mkStory 1 1500 350 0.06).phi) ∧
      ((updatePlayer (1 / 2) 100 (mkStory 1 1500 350 0.06) []).rating =
            (mkStory 1 1500 350 0.06).rating ∧
          (updatePlayer (1 / 2) 100 (mkStory 1 1500 350 0.06) []).sigma =
            (mkStory 1 1500 350 0.06).sigma ∧
            (updatePlayer (1 / 2) 100 (mkStory 1 1500 350 0.06) []).phi =
              Real.sqrt ((mkStory 1 1500 350 0.06).phi ^ 2 +
                (mkStory 1 1500 350 0.06).sigma ^ 2) ∧
              (updatePlayer (1 / 2) 100 (mkStory 1 1500 350 0.06) []).rd =
                Real.sqrt ((mkStory 1 1500 350 0.06).rd ^ 2 +
                  (scale * (mkStory 1 1500 350 0.06).sigma) ^ 2)) :=
  ⟨⟨by norm_num [mkStory, scale], by norm_num [mkStory, scale]⟩,
    c4_zero_match_update (1 / 2) 100 (mkStory 1 1500 350 0.06)
      (by norm_num [mkStory, scale]) (by norm_num [mkStory, scale])⟩

/-- C4 (counterexample).  The claimed public-scale recurrence
`RD' = sqrt(RD^2 + volatility^2)` is false on the code: for the default
story, the zero-match update yields
`RD' = sqrt(350^2 + (173.7178 * 0.06)^2)`, which differs from
`sqrt(350^2 + 0.06^2)`. -/
theorem c4_public_scale_rd_cex :
    (updatePlayer (1 / 2) 100 (mkStory 1 1500 350 0.06) []).rd ≠
      Real.sqrt ((mkStory 1 1500 350 0.06).rd ^ 2 +
        (mkStory 1 1500 350 0.06).sigma ^ 2) := by
  intro heq
  have hne : scale ≠ 0 := ne_of_gt scale_pos
  have hL : (updatePlayer (1 / 2) 100 (mkStory 1 1500 350 0.06) []).rd =
      Real.sqrt ((350 : ℝ) ^ 2 + (scale * 0.06) ^ 2) := by
    show scale * Real.sqrt (((350 : ℝ) / scale) ^ 2 + (0.06 : ℝ) ^ 2) = _
    rw [show (350 : ℝ) ^ 2 + (scale * 0.06) ^ 2 =
        scale ^ 2 * (((350 : ℝ) / scale) ^ 2 + (0.06 : ℝ) ^ 2) by
      field_simp
      ring]
    rw [Real.sqrt_mul (sq_nonneg scale), Real.sqrt_sq (le_of_lt scale_pos)]
  rw [hL] at heq
  have hargs := (Real.sqrt_inj (by positivity) (by positivity)).mp heq
  have hrd350 : (mkStory 1 1500 350 0.06).rd = 350 := rfl
  have hsig : (mkStory 1 1500 350 0.06).sigma = 0.06 := rfl
  rw [hrd350, hsig] at hargs
  norm_num [scale] at hargs

/-- C8 (counterexample).  The claim reads the bracket loop as stepping
"until f becomes negative"; the code steps while `f` is negative and stops
at the first non-negative value.  Concretely, with `delta = 0`, `phi = 0`,
`v = 1`, `a = 0`, `tau = 1` (so the else-branch is taken), the loop stops
immediately at `k = 1` giving `B = -1`, a point where `f` is non-negative —
so `B` is not a point the loop stepped to because `f` turned negative
there. -/
theorem c8_bracket_step_cex :
    bracketB (fIll 0 0 1 0 1) 0 1 0 0 1 100 = -1 ∧
      0 ≤ fIll 0 0 1 0 1 (-1) := by
  have hu : (0 : ℝ) < Real.exp (-1) := Real.exp_pos _
  have hf : 0 ≤ fIll 0 0 1 0 1 (-1) := by
    unfold fIll
    have key : (-1 : ℝ) ≤ Real.exp (-1) * ((0 : ℝ) ^ 2 - 0 ^ 2 - 1 - Real.exp (-1)) /
        (2 * ((0 : ℝ) ^ 2 + 1 + Real.exp (-1)) ^ 2) := by
      rw [le_div_iff₀ (by positivity)]
      nlinarith [sq_nonneg (1 + Real.exp (-1))]
    have hrw : ((-1 : ℝ) - 0) / 1 ^ 2 = -1 := by norm_num
    rw [hrw]
    linarith
  refine ⟨?_, hf⟩
  unfold bracketB
  rw [if_neg (by norm_num)]
  have hk : findK (fIll 0 0 1 0 1) 0 1 100 1 = 1 := by
    show findK (fIll 0 0 1 0 1) 0 1 (99 + 1) 1 = 1
    have harg : (0 : ℝ) - (1 : ℕ) * 1 = -1 := by norm_num
    simp only [findK, harg, not_lt.mpr hf, if_false]
  rw [hk]
  norm_num

theorem log_ten_lt : Real.log 10 < 5 / 2 := by
  rw [Real.log_lt_iff_lt_exp (by norm_num)]
  have h1 : (2.7182818283 : ℝ) < Real.exp 1 := Real.exp_one_gt_d9
  have h2 : (1 / 2 : ℝ) + 1 ≤ Real.exp (1 / 2) := Real.add_one_le_exp _
  have h3 : Real.exp (5 / 2 : ℝ) = Real.exp 1 * Real.exp 1 * Real.exp (1 / 2) := by
    rw [← Real.exp_add, ← Real.exp_add]
    norm_num
  rw [h3]
  nlinarith [Real.exp_pos (1 / 2 : ℝ), Real.exp_pos (1 : ℝ)]

theorem pi_sq_gt_nine : (9 : ℝ) < Real.pi ^ 2 := by
  nlinarith [Real.pi_gt_three]

theorem Qconst_sq_lt : Qconst ^ 2 < 1 / 25600 := by
  have hpos : 0 < Real.log 10 := Real.log_pos (by norm_num)
  have h := log_ten_lt
  unfold Qconst
  rw [div_pow]
  rw [div_lt_div_iff₀ (by norm_num) (by norm_num)]
  nlinarith

/-- C9 (counterexample).  No RD floor exists in the code: a default story
(rating 1500, RD 350) that wins a single match against an equally rated
default opponent ends the period with RD strictly below 350, the only
configured RD reference value — RD is bounded below by nothing but 0. -/
theorem c9_rd_below_default_cex :
    (updatePlayer (1 / 2) 100 (mkStory 1 1500 350 0.06)
        [((0 : ℝ), (350 : ℝ) / scale, 1)]).rd < 350 := by
  set p := mkStory 1 1500 350 0.06 with hp
  set ps : List OppEntry := [((0 : ℝ), (350 : ℝ) / scale, 1)] with hps
  have hg0 : 0 < gG ((350 : ℝ) / scale) := gG_pos _
  have hmu : p.mu = 0 := by simp [hp, mkStory]
  have hphi_eq : (updatePlayer (1 / 2) 100 p ps).phi = phiNew (1 / 2) 100 p ps := by
    rw [hps]
    simp only [updatePlayer, List.isEmpty_cons, Bool.false_eq_true, if_false]
    rfl
  have hrd : (updatePlayer (1 / 2) 100 p ps).rd = scale * phiNew (1 / 2) 100 p ps := by
    rw [updatePlayer_rd_scale, hphi_eq]
  have hE : EG p.mu 0 ((350 : ℝ) / scale) = 1 / 2 := by
    rw [hmu]
    unfold EG
    norm_num [Real.exp_zero]
  have hvSum : vSumOf p.mu ps = gG ((350 : ℝ) / scale) ^ 2 / 4 := by
    rw [hps]
    unfold vSumOf
    simp only [List.map_cons, List.map_nil, List.sum_cons, List.sum_nil, add_zero]
    rw [hE]
    ring
  have hsum_pos : 0 < vSumOf p.mu ps := by
    rw [hvSum]
    exact div_pos (pow_pos hg0 2) (by norm_num)
  have hstar := phiStarOf_pos (1 / 2) 100 p ps
  have hphiNew_lt : phiNew (1 / 2) 100 p ps < 1 / Real.sqrt (vSumOf p.mu ps) := by
    unfold phiNew
    have h1v : 1 / vOf p.mu ps = vSumOf p.mu ps := by
      unfold vOf
      rw [one_div_one_div]
    have hppos : 0 < 1 / phiStarOf (1 / 2) 100 p ps ^ 2 :=
      one_div_pos.mpr (pow_pos hstar 2)
    have hlt : vSumOf p.mu ps <
        1 / phiStarOf (1 / 2) 100 p ps ^ 2 + 1 / vOf p.mu ps := by
      rw [h1v]
      linarith
    have hs1 : 0 < Real.sqrt (vSumOf p.mu ps) := Real.sqrt_pos.mpr hsum_pos
    have hs2 : Real.sqrt (vSumOf p.mu ps) <
        Real.sqrt (1 / phiStarOf (1 / 2) 100 p ps ^ 2 + 1 / vOf p.mu ps) :=
      Real.sqrt_lt_sqrt (le_of_lt hsum_pos) hlt
    exact one_div_lt_one_div_of_lt hs1 hs2
  have hsqrtv : Real.sqrt (vSumOf p.mu ps) = gG ((350 : ℝ) / scale) / 2 := by
    rw [hvSum,
      show gG ((350 : ℝ) / scale) ^ 2 / 4 = (gG ((350 : ℝ) / scale) / 2) ^ 2 by ring,
      Real.sqrt_sq (by positivity)]
  have hW : Real.sqrt (1 + 3 * Qconst ^ 2 * ((350 : ℝ) / scale) ^ 2 / Real.pi ^ 2) ≤
      175 / scale := by
    have hQ := Qconst_sq_lt
    have hpi := pi_sq_gt_nine
    have hQ0 : (0 : ℝ) ≤ Qconst ^ 2 := sq_nonneg _
    have hc : ((350 : ℝ) / scale) ^ 2 < 41 / 10 := by norm_num [scale]
    have hd : 3 * Qconst ^ 2 * ((350 : ℝ) / scale) ^ 2 / Real.pi ^ 2 ≤
        3 * Qconst ^ 2 * ((350 : ℝ) / scale) ^ 2 / 9 := by
      gcongr
    have hnum : 1 + 3 * Qconst ^ 2 * ((350 : ℝ) / scale) ^ 2 / 9 ≤
        ((175 : ℝ) / scale) ^ 2 := by
      rw [show ((350 : ℝ) / scale) ^ 2 = 350 ^ 2 / scale ^ 2 by ring,
        show ((175 : ℝ) / scale) ^ 2 = 175 ^ 2 / scale ^ 2 by ring]
      norm_num [scale]
      nlinarith [hQ, hQ0]
    have harg : 1 + 3 * Qconst ^ 2 * ((350 : ℝ) / scale) ^ 2 / Real.pi ^ 2 ≤
        ((175 : ℝ) / scale) ^ 2 := by linarith
    calc Real.sqrt (1 + 3 * Qconst ^ 2 * ((350 : ℝ) / scale) ^ 2 / Real.pi ^ 2) ≤
          Real.sqrt (((175 : ℝ) / scale) ^ 2) := Real.sqrt_le_sqrt harg
      _ = 175 / scale := Real.sqrt_sq (le_of_lt (div_pos (by norm_num) scale_pos))
  have hginv : 1 / gG ((350 : ℝ) / scale) ≤ 175 / scale := by
    unfold gG
    rw [one_div_one_div]
    exact hW
  have h2g : 1 / Real.sqrt (vSumOf p.mu ps) = 2 * (1 / gG ((350 : ℝ) / scale)) := by
    rw [hsqrtv, one_div_div, mul_one_div]
  rw [hrd]
  calc scale * phiNew (1 / 2) 100 p ps <
        scale * (1 / Real.sqrt (vSumOf p.mu ps)) :=
        mul_lt_mul_of_pos_left hphiNew_lt scale_pos
    _ = scale * (2 * (1 / gG ((350 : ℝ) / scale))) := by rw [h2g]
    _ ≤ scale * (2 * (175 / scale)) := by
        apply mul_le_mul_of_nonneg_left _ (le_of_lt scale_pos)
        exact mul_le_mul_of_nonneg_left hginv (by norm_num)
    _ = 350 := by
        have hne0 : scale ≠ 0 := ne_of_gt scale_pos
        field_simp
        ring

end AlphaEvolve
